import Mathlib

/-!
Verification of the header-detection-and-rewrite engine of the
licenseheaders tool (src/licenseheaders/licenseheaders.py).

A file is modelled as a list of lines; a line is a list of characters, as
produced by readlines (each line normally ends with a newline character).
The regular expressions of the source are modelled as executable Boolean
matchers on lines, following the semantics of re.findall truthiness
(a match exists somewhere in the line) for each concrete pattern.  The
scanning loops of read_file, the header formatting of for_type, and the
three rewrite modes of main are translated into structurally recursive
functions below.
-/

namespace Licenseheaders

/-- A line of a file: the characters of the line including its newline. -/
abbrev Line := List Char

/-- Python regex whitespace class over the ASCII range, as used by the
patterns of the source (space, tab, newline, carriage return,
vertical tab, form feed). -/
def isSpace (c : Char) : Bool :=
  c = ' ' || c = '\t' || c = '\n' || c = '\r' || c = Char.ofNat 11 || c = Char.ofNat 12

/-- ASCII digit, the [0-9] class of the source patterns. -/
def isDigit (c : Char) : Bool :=
  '0' ≤ c && c ≤ '9'

/-- ASCII lower-casing, modelling re.IGNORECASE on the ASCII inputs used
by the patterns of the source. -/
def asciiLower (c : Char) : Char :=
  if 'A' ≤ c && c ≤ 'Z' then Char.ofNat (c.toNat + 32) else c

/-- Model of emptyPattern (line 196): a line matches when it consists
only of whitespace characters. -/
def matchesEmpty (l : Line) : Bool :=
  l.all isSpace

/-- Model of the keepFirst pattern of the script and python profiles
(lines 85 and 181): the line starts with the two characters of a shebang. -/
def matchesHashBang (l : Line) : Bool :=
  (("#!").data).isPrefixOf l

/-- Auxiliary scan for the keepMore pattern: somewhere in a newline-free
character list the word coding occurs, followed by at least one more
character. -/
def hasCodingPlus : List Char → Bool
  | [] => false
  | c :: rest =>
    ((("coding").data).isPrefixOf (c :: rest) && decide (6 ≤ rest.length)) || hasCodingPlus rest

/-- Model of the keepMore pattern of the python profile (line 182): the
line starts with a hash sign and, before any newline, contains the word
coding followed by at least one further character. -/
def matchesCodingLine (l : Line) : Bool :=
  match l with
  | [] => false
  | c :: rest => c = '#' && hasCodingPlus (rest.takeWhile (fun d => !(d = '\n')))

/-- Model of the python lineCommentStartPattern (line 185): optional
leading whitespace followed by a hash sign. -/
def matchesPyLineComment (l : Line) : Bool :=
  match l.dropWhile isSpace with
  | [] => false
  | c :: _ => c = '#'

/-- Model of the java blockCommentStartPattern (line 62): optional
leading whitespace followed by a slash and a star. -/
def matchesJavaBlockStart (l : Line) : Bool :=
  (("/*").data).isPrefixOf (l.dropWhile isSpace)

/-- Model of the java blockCommentEndPattern (line 63): a star and a
slash followed only by whitespace until the end of the line. -/
def matchesJavaBlockEnd (l : Line) : Bool :=
  (("/*").data).isPrefixOf ((l.reverse).dropWhile isSpace)

/-- Does the first list occur contiguously anywhere in the second? -/
def occursIn (pat : List Char) : List Char → Bool
  | [] => pat.isEmpty
  | c :: rest => pat.isPrefixOf (c :: rest) || occursIn pat rest

/-- Model of the java lineCommentStartPattern (line 64): since the
pattern has no anchor and its whitespace part may be empty, it matches
exactly when two consecutive slashes occur anywhere in the line. -/
def matchesSlashSlash (l : Line) : Bool :=
  occursIn (("//").data) l

/-- Model of licensePattern (line 195): the word license occurs in the
line, case-insensitively. -/
def matchesLicense (l : Line) : Bool :=
  occursIn (("license").data) (l.map asciiLower)

/-- One-to-four digit run check for the tail of the years pattern:
after the dash the pattern requires at least one digit. -/
def digitsDash (t : List Char) : Bool :=
  match t with
  | a :: b :: c :: d :: e :: f :: _ =>
    isDigit a && isDigit b && isDigit c && isDigit d && e = '-' && isDigit f
  | _ => false

/-- Does a match of yearsPattern (line 194) start at this position?  The
pattern requires the word copyright (case-insensitively), optional
whitespace, an optional parenthesised copyright sign, four digits, and
then a mandatory dash followed by at least one digit. -/
def yearsFrom (s : List Char) : Bool :=
  if ((s.take 9).map asciiLower) = (("copyright").data) then
    let r1 := (s.drop 9).dropWhile isSpace
    match r1 with
    | '(' :: rest =>
      match rest.dropWhile isSpace with
      | c :: rest2 =>
        if c = 'C' || c = 'c' || c = '|' || c = Char.ofNat 169 then
          match rest2.dropWhile isSpace with
          | ')' :: rest3 => digitsDash (rest3.dropWhile isSpace)
          | _ => false
        else false
      | [] => false
    | _ => digitsDash r1
  else false

/-- Model of yearsPattern findall truthiness: a match starts at some
position of the line. -/
def matchesYears (l : Line) : Bool :=
  match l with
  | [] => false
  | _ :: rest => yearsFrom l || matchesYears rest

/-- A language profile restricted to the patterns that drive the
scanning loops of read_file: the preserved-line patterns and the
comment patterns (typeSettings, lines 58 to 192). -/
structure Profile where
  keepFirst : Option (Line → Bool)
  keepMore : Option (Line → Bool)
  blockStart : Option (Line → Bool)
  blockEnd : Option (Line → Bool)
  lineStart : Option (Line → Bool)

/-- Truthiness of keepFirst and keepFirst.findall(line). -/
def Profile.keepFirstMatches (p : Profile) (l : Line) : Bool :=
  match p.keepFirst with
  | some f => f l
  | none => false

/-- Truthiness of keepMore and keepMore.findall(line). -/
def Profile.keepMoreMatches (p : Profile) (l : Line) : Bool :=
  match p.keepMore with
  | some f => f l
  | none => false

/-- Truthiness of blockCommentStartPattern and its findall. -/
def Profile.blockStartMatches (p : Profile) (l : Line) : Bool :=
  match p.blockStart with
  | some f => f l
  | none => false

/-- Truthiness of blockCommentEndPattern.findall(line). -/
def Profile.blockEndMatches (p : Profile) (l : Line) : Bool :=
  match p.blockEnd with
  | some f => f l
  | none => false

/-- Truthiness of lineCommentStartPattern and its findall. -/
def Profile.lineStartMatches (p : Profile) (l : Line) : Bool :=
  match p.lineStart with
  | some f => f l
  | none => false

/-- The guard of the two skip-counting branches of the scanning loop
(lines 358 to 361): the first line against keepFirst, later lines
against keepMore. -/
def keepsAt (p : Profile) (i : Nat) (l : Line) : Bool :=
  (decide (i = 0) && p.keepFirstMatches l) || (decide (0 < i) && p.keepMoreMatches l)

/-- Outcome of the first loop of read_file (lines 356 to 383): either a
line was reached that is neither preserved nor blank nor a comment start
(the early return of line 376), or the lines ran out (line 381), or a
comment start was found at index i with the preserved-line count skip. -/
inductive StartOutcome where
  | noHeader (skip : Nat)
  | exhausted (skip : Nat)
  | found (skip : Nat) (i : Nat)
deriving DecidableEq

/-- The first loop of read_file (lines 356 to 377), iterating over the
remaining lines with the current index and preserved count. -/
def scanStartAux (p : Profile) : List Line → Nat → Nat → StartOutcome
  | [], _, skip => .exhausted skip
  | l :: rest, i, skip =>
    if keepsAt p i l then scanStartAux p rest (i + 1) (skip + 1)
    else if matchesEmpty l then scanStartAux p rest (i + 1) skip
    else if p.blockStartMatches l then .found skip i
    else if p.lineStartMatches l then .found skip i
    else .noHeader skip

/-- The block-comment loop of read_file (lines 386 to 394), iterating
over the lines from the header start with the current index, years line
and license flag.  Returns the found header end (or none when the lines
ran out), the years line, and the license flag. -/
def scanBlock (p : Profile) : List Line → Nat → Option Nat → Bool → Option Nat × Option Nat × Bool
  | [], _, _, hl => (none, none, hl)
  | l :: rest, j, yl, hl =>
    if matchesLicense l then scanBlock p rest (j + 1) yl true
    else if p.blockEndMatches l then (some j, yl, hl)
    else if matchesYears l then scanBlock p rest (j + 1) (some j) true
    else scanBlock p rest (j + 1) yl hl

/-- The line-comment loop of read_file (lines 400 to 407), iterating
over the lines from the header start up to but excluding the last line
of the file.  Returns some (j - 1) when a non-comment line was reached
at index j (the early return of line 404), or none for the fall-through
of line 410, together with the years line and the license flag. -/
def scanLine (p : Profile) : List Line → Nat → Option Nat → Bool → Option Nat × Option Nat × Bool
  | [], _, yl, hl => (none, yl, hl)
  | l :: rest, j, yl, hl =>
    if p.lineStartMatches l && matchesLicense l then scanLine p rest (j + 1) yl true
    else if !(p.lineStartMatches l) then (some (j - 1), yl, hl)
    else if matchesYears l then scanLine p rest (j + 1) (some j) true
    else scanLine p rest (j + 1) yl hl

/-- The dictionary returned by read_file, restricted to the scan fields
(the lines and settings are carried by the caller). -/
structure ScanResult where
  skip : Nat
  headStart : Option Nat
  headEnd : Option Nat
  yearsLine : Option Nat
  haveLicense : Bool
deriving DecidableEq

/-- The scanning logic of read_file (lines 333 to 410) on the lines of a
file of a supported type: find the header start while counting
preserved lines, then scan the comment block with the block loop when
the profile defines a block-comment start pattern and with the line
loop otherwise. -/
def read_file (p : Profile) (lines : List Line) : ScanResult :=
  match scanStartAux p lines 0 0 with
  | .noHeader skip => ⟨skip, none, none, none, false⟩
  | .exhausted skip => ⟨skip, none, none, none, false⟩
  | .found skip i =>
    if p.blockStart.isSome then
      match scanBlock p (lines.drop i) i none false with
      | (some e, yl, hl) => ⟨skip, some i, some e, yl, hl⟩
      | (none, _, hl) => ⟨skip, none, none, none, hl⟩
    else
      match scanLine p ((lines.drop i).dropLast) i none false with
      | (some e, yl, hl) => ⟨skip, some i, some e, yl, hl⟩
      | (none, yl, hl) => ⟨skip, some i, some (lines.length - 1), yl, hl⟩

/-- The header formatting settings of a profile (headerStartLine,
headerEndLine, headerLinePrefix, headerLineSuffix of typeSettings). -/
structure FmtProfile where
  headerStartLine : Option Line
  headerEndLine : Option Line
  headerLinePre : Option Line
  headerLineSuf : Option Line

/-- for_type (lines 302 to 320): wrap each template line with the
per-line prefix and suffix and bracket the result with the start and
end lines when present. -/
def for_type (fp : FmtProfile) (templatelines : List Line) : List Line :=
  fp.headerStartLine.toList ++
    templatelines.map (fun l =>
      let t := match fp.headerLinePre with
        | some pre => pre ++ l
        | none => l
      match fp.headerLineSuf with
      | some suf => t ++ suf
      | none => t) ++
    fp.headerEndLine.toList

/-- The replace branch of main (lines 528 to 535): lines before the
header, the formatted header, then the lines after the header. -/
def replaceHeader (lines header : List Line) (hs he : Nat) : List Line :=
  lines.take hs ++ header ++ lines.drop (he + 1)

/-- The insert branch of main (lines 536 to 540): the first skip lines,
the formatted header, then the remaining lines. -/
def insertHeader (lines header : List Line) (skip : Nat) : List Line :=
  lines.take skip ++ header ++ lines.drop skip

/-- The year-update branch of main (lines 542 to 549): the lines before
the years line, then the years line with the substitution applied; the
code writes nothing after that line. -/
def updateYears (lines : List Line) (yl : Nat) (sub : Line → Line) : List Line :=
  lines.take yl ++ [sub (lines.getD yl [])]

/-- The python profile of typeSettings (lines 179 to 191). -/
def pythonProfile : Profile :=
  ⟨some matchesHashBang, some matchesCodingLine, none, none, some matchesPyLineComment⟩

/-- The java profile of typeSettings (lines 59 to 70). -/
def javaProfile : Profile :=
  ⟨none, none, some matchesJavaBlockStart, some matchesJavaBlockEnd, some matchesSlashSlash⟩

/-- The erlang profile of typeSettings (lines 167 to 178): no preserved
lines and no comment patterns at all. -/
def erlangProfile : Profile :=
  ⟨none, none, none, none, none⟩

/-- The python header formatting settings (lines 187 to 190). -/
def pythonFmt : FmtProfile :=
  ⟨some (("#\n").data), some (("#\n").data), some (("# ").data), none⟩

/-- The java header formatting settings (lines 66 to 69). -/
def javaFmt : FmtProfile :=
  ⟨some (("/*\n").data), some ((" */\n").data), some ((" * ").data), none⟩

/-- The erlang header formatting settings (lines 174 to 177); the start
and end strings contain embedded newlines. -/
def erlangFmt : FmtProfile :=
  ⟨some (("%% -*- erlang -*-\n%% %CopyrightBegin%\n%%\n").data),
   some (("%%\n%% %CopyrightEnd%\n\n").data),
   some (("%% ").data), none⟩

/-- readlines semantics: split a character stream into lines after each
newline character, keeping the newline, and keeping a final unterminated
piece when nonempty. -/
def splitLinesAux : List Char → List Char → List Line
  | [], acc => if acc.isEmpty then [] else [acc.reverse]
  | c :: rest, acc =>
    if c = '\n' then (acc.reverse ++ ['\n']) :: splitLinesAux rest []
    else splitLinesAux rest (c :: acc)

/-- Split a character stream into readlines-style lines. -/
def splitLines (s : List Char) : List Line :=
  splitLinesAux s []

/-- A piece of a template line: literal text, or a dollar placeholder to
be substituted (string.Template semantics in read_template, line 298). -/
inductive Chunk where
  | lit (s : Line)
  | var (n : Line)

/-- Substitute one chunk against the settings dictionary; a placeholder
with no value fails, as Template.substitute raises KeyError. -/
def substChunk (d : Line → Option Line) : Chunk → Option Line
  | .lit s => some s
  | .var n => d n

/-- Substitute a whole template line; any missing placeholder value
makes the whole line fail. -/
def substLine (d : Line → Option Line) : List Chunk → Option Line
  | [] => some []
  | c :: rest =>
    match substChunk d c, substLine d rest with
    | some s, some r => some (s ++ r)
    | _, _ => none

/-- Substitute every line of a template, failing when any line fails. -/
def substAll (d : Line → Option Line) : List (List Chunk) → Option (List Line)
  | [] => some []
  | cs :: rest =>
    match substLine d cs, substAll d rest with
    | some l, some ls => some (l :: ls)
    | _, _ => none

/-- read_template (lines 291 to 299): set the file_name entry from the
file name when includefile is set and truthy (otherwise the literal
This file), then substitute every template line, failing on the first
missing placeholder value. -/
def read_template (tmpl : List (List Chunk)) (fileName : Line) (d : Line → Option Line) :
    Option (List Line) :=
  let fn := match d (("includefile").data) with
    | some v => if v.isEmpty then ("This file").data else fileName
    | none => ("This file").data
  let d2 := fun k => if k = (("file_name").data) then some fn else d k
  substAll d2 tmpl

/-- The template branch of main (lines 518 to 540): replace the header
when both bounds were detected and the license flag is set, otherwise
insert the formatted header after the first skip lines. -/
def rewriteWith (p : Profile) (fp : FmtProfile) (tls lines : List Line) : List Line :=
  let r := read_file p lines
  match r.headStart, r.headEnd, r.haveLicense with
  | some hs, some he, true => replaceHeader lines (for_type fp tls) hs he
  | _, _, _ => insertHeader lines (for_type fp tls) r.skip

/-- The per-file loop of main (lines 470 to 540) in the template mode:
for each file, load the template through read_template (the name of the
file enters the substitution dictionary) and rewrite the file; a failed
substitution aborts the loop at once, so no later file is written.
Returns the list of written files and the error flag. -/
def processFiles (p : Profile) (fp : FmtProfile) (tmpl : List (List Chunk))
    (d : Line → Option Line) :
    List (Line × List Line) → List (Line × List Line) → List (Line × List Line) × Bool
  | [], acc => (acc.reverse, false)
  | (name, ls) :: rest, acc =>
    match read_template tmpl name d with
    | none => (acc.reverse, true)
    | some tls => processFiles p fp tmpl d rest ((name, rewriteWith p fp tls ls) :: acc)

/-- The skip count carried by any outcome of the first scanning loop. -/
def StartOutcome.skipOf : StartOutcome → Nat
  | .noHeader s => s
  | .exhausted s => s
  | .found s _ => s

/-- The input lines of the spec scenario: shebang, a copyright line, a
license line, and a code line. -/
def scenarioLines : List Line :=
  [("#!/usr/bin/env python\n").data,
   ("# Copyright 2015 Foo\n").data,
   ("# license: MIT\n").data,
   ['p', 'r', 'i', 'n', 't', '(', Char.ofNat 39, 'h', 'i', Char.ofNat 39, ')', '\n']]

/-- A two-line python file whose only non-comment line is the last. -/
def overrunLines : List Line :=
  [("# a\n").data, ("x\n").data]

/-- A python file with a copyright year range on its first line. -/
def yearFileLines : List Line :=
  [("# Copyright 2015-2016 Foo\n").data, ("print(42)\n").data]

/-- A java file with an unterminated block comment. -/
def untermLines : List Line :=
  [("/* foo\n").data, ("bar\n").data]

/-- A java file whose first block-end-matching line also contains the
license keyword. -/
def endWithLicenseLines : List Line :=
  [("/* foo\n").data, ("x license */\n").data, ("*/\n").data]

/-- The file obtained by writing the erlang-formatted header for a
one-line template and reading it back line by line. -/
def erlangRoundTripLines : List Line :=
  splitLines ((for_type erlangFmt [("Licensed under MIT\n").data]).flatten)

/-- A python file with a shebang, a copyright-years comment line, a
further comment line and a code line. -/
def shebangYearLines : List Line :=
  [("#!/bin/sh\n").data,
   ("# Copyright 2000-2001\n").data,
   ("# b\n").data,
   ("z\n").data]

/-- A python file in which a blank line separates the shebang from the
coding declaration. -/
def blankCodingLines : List Line :=
  [("#!/usr/bin/env python\n").data,
   ("\n").data,
   ("# -*- coding: utf-8 -*-\n").data,
   ("# x\n").data]

/-- A one-line template containing a placeholder named owner, with a
literal prefix. -/
def ownerTemplate : List (List Chunk) :=
  [[Chunk.lit (("Copyright ").data), Chunk.var (("owner").data)]]

/-- A settings dictionary providing no value for any placeholder. -/
def emptyDict : Line → Option Line :=
  fun _ => none

/-- getD after drop reads the shifted index. -/
theorem getD_drop {α : Type} (d : α) : ∀ (l : List α) (i q : Nat),
    (l.drop i).getD q d = l.getD (i + q) d
  | _, 0, _ => by simp
  | [], _ + 1, _ => by simp [List.getD]
  | _ :: t, i + 1, q => by
    simp only [List.drop, Nat.succ_add, List.getD_cons_succ]
    exact getD_drop d t i q

/-- getD before the final element is unchanged by dropLast. -/
theorem getD_dropLast {α : Type} (d : α) : ∀ (l : List α) (q : Nat),
    q + 1 < l.length → l.dropLast.getD q d = l.getD q d
  | [], q, h => by simp at h
  | [_], q, h => by simp at h
  | _ :: b :: t, 0, _ => by simp [List.dropLast, List.getD]
  | a :: b :: t, q + 1, h => by
    have hb : q + 1 < (b :: t).length := by
      simpa [List.length] using Nat.lt_of_succ_lt_succ h
    simpa [List.dropLast, List.getD] using getD_dropLast d (b :: t) q hb

/-- getD past the first list reads the second. -/
theorem getD_append_shift {α : Type} (d : α) : ∀ (l₁ l₂ : List α) (n : Nat),
    (l₁ ++ l₂).getD (l₁.length + n) d = l₂.getD n d
  | [], _, _ => by simp
  | a :: t, l₂, n => by
    simpa [List.length, Nat.succ_add] using getD_append_shift d t l₂ n

/-- getD within the first list ignores the second. -/
theorem getD_append_left {α : Type} (d : α) : ∀ (l₁ l₂ : List α) (n : Nat),
    n < l₁.length → (l₁ ++ l₂).getD n d = l₁.getD n d
  | [], _, n, h => by simp at h
  | a :: t, l₂, 0, _ => by simp [List.getD]
  | a :: t, l₂, n + 1, h => by
    have := getD_append_left d t l₂ n (by simpa [List.length] using Nat.lt_of_succ_lt_succ h)
    simpa [List.getD] using this

/-- getD through map applies the function, within bounds. -/
theorem getD_map {α β : Type} (f : α → β) (d : α) (d' : β) : ∀ (l : List α) (q : Nat),
    q < l.length → (l.map f).getD q d' = f (l.getD q d)
  | [], q, h => by simp at h
  | a :: t, 0, _ => by simp [List.getD]
  | a :: t, q + 1, h => by
    have := getD_map f d d' t q (by simpa [List.length] using Nat.lt_of_succ_lt_succ h)
    simpa [List.getD] using this

/-- getD within bounds is a member of the list. -/
theorem getD_mem {α : Type} (d : α) : ∀ (l : List α) (q : Nat),
    q < l.length → l.getD q d ∈ l
  | [], q, h => by simp at h
  | a :: t, 0, _ => by simp [List.getD]
  | a :: t, q + 1, h => by
    have := getD_mem d t q (by simpa [List.length] using Nat.lt_of_succ_lt_succ h)
    simp [List.getD]
    exact Or.inr (by simpa [List.getD] using this)

/-- getD within bounds agrees with list indexing. -/
theorem getD_eq_getElem' {α : Type} (d : α) : ∀ (l : List α) (n : Nat) (h : n < l.length),
    l.getD n d = l[n]
  | _ :: _, 0, _ => rfl
  | _ :: t, n + 1, h => getD_eq_getElem' d t n (by simpa using Nat.lt_of_succ_lt_succ h)
  | [], _, h => absurd h (by simp)

/-- Index and skip-count bounds of a successful start scan: the found
index lies within the scanned range and at or after the starting index,
and the skip count never decreases. -/
theorem scanStartAux_found_bounds (p : Profile) : ∀ (ls : List Line) (i0 s0 s i : Nat),
    scanStartAux p ls i0 s0 = .found s i → i0 ≤ i ∧ i < i0 + ls.length ∧ s0 ≤ s := by
  intro ls
  induction ls with
  | nil => intro i0 s0 s i h; simp [scanStartAux] at h
  | cons l rest ih =>
    intro i0 s0 s i h
    simp only [scanStartAux] at h
    split at h
    · obtain ⟨h1, h2, h3⟩ := ih (i0 + 1) (s0 + 1) s i h
      exact ⟨by omega, by simp [List.length]; omega, by omega⟩
    · split at h
      · obtain ⟨h1, h2, h3⟩ := ih (i0 + 1) s0 s i h
        exact ⟨by omega, by simp [List.length]; omega, by omega⟩
      · split at h
        · cases h; exact ⟨Nat.le_refl _, by simp [List.length], Nat.le_refl _⟩
        · split at h
          · cases h; exact ⟨Nat.le_refl _, by simp [List.length], Nat.le_refl _⟩
          · cases h

/-- The line at a found start index matches the block-comment start
pattern or the line-comment start pattern. -/
theorem scanStartAux_found_match (p : Profile) : ∀ (ls : List Line) (i0 s0 s i : Nat),
    scanStartAux p ls i0 s0 = .found s i →
    p.blockStartMatches (ls.getD (i - i0) []) = true ∨
      p.lineStartMatches (ls.getD (i - i0) []) = true := by
  intro ls
  induction ls with
  | nil => intro i0 s0 s i h; simp [scanStartAux] at h
  | cons l rest ih =>
    intro i0 s0 s i h
    simp only [scanStartAux] at h
    split at h
    · have hb := scanStartAux_found_bounds p rest (i0 + 1) (s0 + 1) s i h
      have hi : i - i0 = (i - (i0 + 1)) + 1 := by omega
      rw [hi]
      simpa [List.getD] using ih (i0 + 1) (s0 + 1) s i h
    · split at h
      · have hb := scanStartAux_found_bounds p rest (i0 + 1) s0 s i h
        have hi : i - i0 = (i - (i0 + 1)) + 1 := by omega
        rw [hi]
        simpa [List.getD] using ih (i0 + 1) s0 s i h
      · split at h
        · cases h
          simp only [Nat.sub_self, List.getD]
          exact Or.inl (by assumption)
        · split at h
          · cases h
            simp only [Nat.sub_self, List.getD]
            exact Or.inr (by assumption)
          · cases h

/-- The skip count of any start-scan outcome is at least the count it
started from. -/
theorem scanStartAux_skip_le (p : Profile) : ∀ (ls : List Line) (i0 s0 : Nat),
    s0 ≤ (scanStartAux p ls i0 s0).skipOf := by
  intro ls
  induction ls with
  | nil => intro i0 s0; simp [scanStartAux, StartOutcome.skipOf]
  | cons l rest ih =>
    intro i0 s0
    simp only [scanStartAux]
    split
    · exact Nat.le_trans (Nat.le_succ s0) (ih (i0 + 1) (s0 + 1))
    · split
      · exact ih (i0 + 1) s0
      · split
        · simp [StartOutcome.skipOf]
        · split
          · simp [StartOutcome.skipOf]
          · simp [StartOutcome.skipOf]

/-- The skip field of read_file is the skip count of the start scan. -/
theorem read_file_skip (p : Profile) (lines : List Line) :
    (read_file p lines).skip = (scanStartAux p lines 0 0).skipOf := by
  unfold read_file
  cases h : scanStartAux p lines 0 0 with
  | noHeader s => simp [StartOutcome.skipOf]
  | exhausted s => simp [StartOutcome.skipOf]
  | found s i =>
    simp only [StartOutcome.skipOf]
    split
    · rcases hb : scanBlock p (lines.drop i) i none false with ⟨r1, r2, r3⟩
      cases r1 <;> simp
    · rcases hb : scanLine p ((lines.drop i).dropLast) i none false with ⟨r1, r2, r3⟩
      cases r1 <;> simp

/-- A successful block scan returns a header end at or after its start
index, and a years line (when changed) strictly inside the scanned
range before the end. -/
theorem scanBlock_headEnd (p : Profile) : ∀ (ls : List Line) (j : Nat) (yl0 : Option Nat)
    (hl : Bool) (e : Nat) (yl : Option Nat) (hl' : Bool),
    scanBlock p ls j yl0 hl = (some e, yl, hl') →
    j ≤ e ∧ (yl = yl0 ∨ ∃ y, yl = some y ∧ j ≤ y ∧ y < e) := by
  intro ls
  induction ls with
  | nil => intro j yl0 hl e yl hl' h; simp [scanBlock] at h
  | cons l rest ih =>
    intro j yl0 hl e yl hl' h
    simp only [scanBlock] at h
    split at h
    · obtain ⟨h1, h2⟩ := ih (j + 1) yl0 true e yl hl' h
      refine ⟨by omega, ?_⟩
      rcases h2 with h2 | ⟨y, hy, hy1, hy2⟩
      · exact Or.inl h2
      · exact Or.inr ⟨y, hy, by omega, hy2⟩
    · split at h
      · cases h; exact ⟨Nat.le_refl _, Or.inl rfl⟩
      · split at h
        · obtain ⟨h1, h2⟩ := ih (j + 1) (some j) true e yl hl' h
          refine ⟨by omega, ?_⟩
          rcases h2 with h2 | ⟨y, hy, hy1, hy2⟩
          · exact Or.inr ⟨j, h2, Nat.le_refl _, by omega⟩
          · exact Or.inr ⟨y, hy, by omega, hy2⟩
        · obtain ⟨h1, h2⟩ := ih (j + 1) yl0 hl e yl hl' h
          refine ⟨by omega, ?_⟩
          rcases h2 with h2 | ⟨y, hy, hy1, hy2⟩
          · exact Or.inl h2
          · exact Or.inr ⟨y, hy, by omega, hy2⟩

/-- When no scanned line matches the block-end pattern, the block scan
finds no header end. -/
theorem scanBlock_noEnd (p : Profile) : ∀ (ls : List Line) (j : Nat) (yl0 : Option Nat)
    (hl : Bool), (∀ l ∈ ls, p.blockEndMatches l = false) →
    (scanBlock p ls j yl0 hl).1 = none := by
  intro ls
  induction ls with
  | nil => intro j yl0 hl _; simp [scanBlock]
  | cons l rest ih =>
    intro j yl0 hl hno
    have hl0 : p.blockEndMatches l = false := hno l (by simp)
    have hrest : ∀ l' ∈ rest, p.blockEndMatches l' = false := fun l' hm => hno l' (by simp [hm])
    simp only [scanBlock, hl0, Bool.false_eq_true, if_false]
    split
    · exact ih (j + 1) yl0 true hrest
    · split
      · exact ih (j + 1) (some j) true hrest
      · exact ih (j + 1) yl0 hl hrest

/-- The block scan stops at the first scanned line that matches the
block-end pattern without containing the license keyword, and the
license flag is set whenever it was already set or an earlier scanned
line contains the license keyword. -/
theorem scanBlock_firstEnd (p : Profile) : ∀ (ls : List Line) (m j : Nat) (yl0 : Option Nat)
    (hl : Bool),
    (∀ q, q < m → matchesLicense (ls.getD q []) = true ∨
      p.blockEndMatches (ls.getD q []) = false) →
    m < ls.length →
    p.blockEndMatches (ls.getD m []) = true →
    matchesLicense (ls.getD m []) = false →
    (scanBlock p ls j yl0 hl).1 = some (j + m) ∧
      ((hl = true ∨ ∃ q, q < m ∧ matchesLicense (ls.getD q []) = true) →
        (scanBlock p ls j yl0 hl).2.2 = true) := by
  intro ls
  induction ls with
  | nil => intro m j yl0 hl _ hm; simp at hm
  | cons l rest ih =>
    intro m j yl0 hl hprev hm hend hnl
    cases m with
    | zero =>
      simp only [List.getD_cons_zero] at hend hnl
      simp only [scanBlock, hnl, hend, Bool.false_eq_true, if_false, if_true]
      refine ⟨by simp, ?_⟩
      rintro (h | ⟨q, hq, _⟩)
      · simpa using h
      · omega
    | succ m' =>
      have h0 := hprev 0 (by omega)
      simp only [List.getD_cons_zero] at h0
      simp only [List.getD_cons_succ, List.length_cons] at hprev hm hend hnl ⊢
      have hprev' : ∀ q, q < m' → matchesLicense (rest.getD q []) = true ∨
          p.blockEndMatches (rest.getD q []) = false := by
        intro q hq
        have := hprev (q + 1) (by omega)
        simpa using this
      have hm' : m' < rest.length := by omega
      cases hL : matchesLicense l with
      | true =>
        simp only [scanBlock, hL, if_true]
        obtain ⟨ha, hb⟩ := ih m' (j + 1) yl0 true hprev' hm' hend hnl
        refine ⟨by rw [ha]; congr 1; omega, fun _ => hb (Or.inl rfl)⟩
      | false =>
        have hE : p.blockEndMatches l = false := by
          rcases h0 with h0 | h0
          · rw [hL] at h0; simp at h0
          · exact h0
        have step : ∀ yl2 hl2, scanBlock p (l :: rest) j yl2 hl2 =
            (if matchesYears l then scanBlock p rest (j + 1) (some j) true
             else scanBlock p rest (j + 1) yl2 hl2) := by
          intro yl2 hl2
          simp [scanBlock, hL, hE]
        have hshift : (hl = true ∨ ∃ q, q < m' + 1 ∧
            matchesLicense ((l :: rest).getD q []) = true) →
            (hl = true ∨ ∃ q, q < m' ∧ matchesLicense (rest.getD q []) = true) := by
          rintro (h | ⟨q, hq, hqq⟩)
          · exact Or.inl h
          · cases q with
            | zero => simp only [List.getD_cons_zero] at hqq; rw [hL] at hqq; simp at hqq
            | succ q' =>
              simp only [List.getD_cons_succ] at hqq
              exact Or.inr ⟨q', by omega, hqq⟩
        rw [step]
        cases hY : matchesYears l with
        | true =>
          simp only [if_true]
          obtain ⟨ha, hb⟩ := ih m' (j + 1) (some j) true hprev' hm' hend hnl
          refine ⟨by rw [ha]; congr 1; omega, fun _ => hb (Or.inl rfl)⟩
        | false =>
          simp only [Bool.false_eq_true, if_false]
          obtain ⟨ha, hb⟩ := ih m' (j + 1) yl0 hl hprev' hm' hend hnl
          refine ⟨by rw [ha]; congr 1; omega, fun h => ?_⟩
          rcases hshift h with h' | h'
          · exact hb (Or.inl h')
          · exact hb (Or.inr h')

/-- Invariants of the line-comment scan: the years line (when changed)
lies at or after the start index, within the scanned range, and at or
before any early header end; and an early header end is at least the
start index minus one. -/
theorem scanLine_inv (p : Profile) : ∀ (ls : List Line) (j : Nat) (yl0 : Option Nat) (hl : Bool),
    ((scanLine p ls j yl0 hl).2.1 = yl0 ∨
      ∃ y, (scanLine p ls j yl0 hl).2.1 = some y ∧ j ≤ y ∧ y < j + ls.length ∧
        (∀ e, (scanLine p ls j yl0 hl).1 = some e → y ≤ e)) ∧
    (∀ e, (scanLine p ls j yl0 hl).1 = some e → j ≤ e + 1) := by
  intro ls
  induction ls with
  | nil =>
    intro j yl0 hl
    refine ⟨Or.inl (by simp [scanLine]), ?_⟩
    intro e h; simp [scanLine] at h
  | cons l rest ih =>
    intro j yl0 hl
    simp only [scanLine, List.length_cons]
    split
    · obtain ⟨h1, h2⟩ := ih (j + 1) yl0 true
      refine ⟨?_, fun e he => by have := h2 e he; omega⟩
      rcases h1 with h1 | ⟨y, hy, hy1, hy2, hy3⟩
      · exact Or.inl h1
      · exact Or.inr ⟨y, hy, by omega, by omega, hy3⟩
    · split
      · refine ⟨Or.inl rfl, ?_⟩
        intro e he
        simp only at he
        cases he
        omega
      · split
        · obtain ⟨h1, h2⟩ := ih (j + 1) (some j) true
          refine ⟨?_, fun e he => by have := h2 e he; omega⟩
          rcases h1 with h1 | ⟨y, hy, hy1, hy2, hy3⟩
          · refine Or.inr ⟨j, h1, Nat.le_refl _, by omega, ?_⟩
            intro e he
            have := h2 e he
            omega
          · exact Or.inr ⟨y, hy, by omega, by omega, hy3⟩
        · obtain ⟨h1, h2⟩ := ih (j + 1) yl0 hl
          refine ⟨?_, fun e he => by have := h2 e he; omega⟩
          rcases h1 with h1 | ⟨y, hy, hy1, hy2, hy3⟩
          · exact Or.inl h1
          · exact Or.inr ⟨y, hy, by omega, by omega, hy3⟩

/-- When the line-comment scan falls through the whole scanned range,
every scanned line matches the line-comment pattern. -/
theorem scanLine_all (p : Profile) : ∀ (ls : List Line) (j : Nat) (yl0 : Option Nat) (hl : Bool),
    (scanLine p ls j yl0 hl).1 = none → ∀ l ∈ ls, p.lineStartMatches l = true := by
  intro ls
  induction ls with
  | nil => intro j yl0 hl _ l hm; simp at hm
  | cons l rest ih =>
    intro j yl0 hl h l' hm
    simp only [scanLine] at h
    split at h
    · rename_i hc
      rcases List.mem_cons.mp hm with rfl | hm'
      · exact (Bool.and_eq_true _ _ |>.mp hc).1
      · exact ih (j + 1) yl0 true h l' hm'
    · split at h
      · simp at h
      · rename_i hc hns
        have hls : p.lineStartMatches l = true := by
          cases hv : p.lineStartMatches l
          · rw [hv] at hns; simp at hns
          · rfl
        rcases List.mem_cons.mp hm with rfl | hm'
        · exact hls
        · split at h
          · exact ih (j + 1) (some j) true h l' hm'
          · exact ih (j + 1) yl0 hl h l' hm'

/-- When the line-comment scan starts strictly after index zero and
returns an early header end e, every scanned line up to relative
position e minus the start index matches the line-comment pattern. -/
theorem scanLine_matches (p : Profile) : ∀ (ls : List Line) (j : Nat) (yl0 : Option Nat)
    (hl : Bool) (e : Nat), 1 ≤ j → (scanLine p ls j yl0 hl).1 = some e →
    ∀ q, j + q ≤ e → p.lineStartMatches (ls.getD q []) = true := by
  intro ls
  induction ls with
  | nil => intro j yl0 hl e _ h; simp [scanLine] at h
  | cons l rest ih =>
    intro j yl0 hl e hj h q hq
    simp only [scanLine] at h
    split at h
    · rename_i hc
      have hls := (Bool.and_eq_true _ _ |>.mp hc).1
      cases q with
      | zero => simpa using hls
      | succ q' =>
        simp only [List.getD_cons_succ]
        exact ih (j + 1) yl0 true e (by omega) h q' (by omega)
    · split at h
      · simp only at h
        cases h
        omega
      · rename_i hc hns
        have hls : p.lineStartMatches l = true := by
          cases hv : p.lineStartMatches l
          · rw [hv] at hns; simp at hns
          · rfl
        cases q with
        | zero => simpa using hls
        | succ q' =>
          simp only [List.getD_cons_succ]
          split at h
          · exact ih (j + 1) (some j) true e (by omega) h q' (by omega)
          · exact ih (j + 1) yl0 hl e (by omega) h q' (by omega)

/-- When the first scanned line matches the line-comment pattern, one
step of the line-comment scan recurses on the rest with the next index
and some years line and license flag. -/
theorem scanLine_cons_first (p : Profile) (l : Line) (rest : List Line) (j : Nat)
    (yl : Option Nat) (hl : Bool) (h : p.lineStartMatches l = true) :
    ∃ yl2 hl2, scanLine p (l :: rest) j yl hl = scanLine p rest (j + 1) yl2 hl2 := by
  simp only [scanLine, h, Bool.true_and, Bool.not_true, Bool.false_eq_true, if_false]
  split
  · exact ⟨yl, true, rfl⟩
  · split
    · exact ⟨some j, true, rfl⟩
    · exact ⟨yl, hl, rfl⟩

/-- C1 (counterexample): on the spec scenario lines with the python
profile, read_file does not return the claimed combination headEnd = 2
and yearsLine = 1 (together with skip = 1, headStart = 1 and
haveLicense = true). -/
theorem python_scenario_claimed_values_false :
    ¬ ((read_file pythonProfile scenarioLines).skip = 1 ∧
       (read_file pythonProfile scenarioLines).headStart = some 1 ∧
       (read_file pythonProfile scenarioLines).headEnd = some 2 ∧
       (read_file pythonProfile scenarioLines).yearsLine = some 1 ∧
       (read_file pythonProfile scenarioLines).haveLicense = true) := by
  decide

/-- C1 (amended): on the spec scenario lines with the python profile,
read_file returns skip = 1, headStart = 1, headEnd = 3, no yearsLine and
haveLicense = true: the line-comment loop stops before the last line, so
with only the final line non-comment the header end falls through to the
last index, and the years pattern demands a dashed year range, so the
line Copyright 2015 records no years line. -/
theorem python_scenario_actual_values :
    read_file pythonProfile scenarioLines = ⟨1, some 1, some 3, none, true⟩ := by
  decide

/-- C2 (counterexample): with the python profile on a two-line file
whose second line is not a comment, read_file returns headEnd = 1 even
though line 1 does not match the line-comment pattern, so the detected
header covers a non-comment line. -/
theorem line_comment_headEnd_overrun :
    (read_file pythonProfile overrunLines).headStart = some 0 ∧
    (read_file pythonProfile overrunLines).headEnd = some 1 ∧
    matchesPyLineComment ((overrunLines).getD 1 []) = false := by
  decide

/-- C3 (code bug): on a python file whose first line carries a year
range and whose second line is code, read_file locates yearsLine = 0,
and the year-update rewrite emits only the lines before the years line
plus the substituted years line: the code line after it is dropped, the
file is truncated. -/
theorem year_update_truncates_file :
    (read_file pythonProfile yearFileLines).yearsLine = some 0 ∧
    updateYears yearFileLines 0 (fun _ => ("# 2020 Foo\n").data) =
      [("# 2020 Foo\n").data] ∧
    ¬ (("print(42)\n").data ∈ updateYears yearFileLines 0 (fun _ => ("# 2020 Foo\n").data)) ∧
    yearFileLines.length = 2 := by
  decide

/-- C5 (counterexample): the erlang profile defines no comment patterns
at all, so the header formatted from a license-bearing template and read
back as lines is not detected: read_file reports no header start and
haveLicense = false, refuting the round-trip for this profile. -/
theorem roundtrip_fails_for_erlang :
    (read_file erlangProfile erlangRoundTripLines).headStart = none ∧
    (read_file erlangProfile erlangRoundTripLines).haveLicense = false := by
  decide

/-- C6 (counterexample): with the java profile, the first line at or
after the header start that matches the block-comment-end pattern is
line 1, which also contains the license keyword; the scan does not stop
there, and read_file returns headEnd = 2 instead. -/
theorem block_end_with_license_skipped :
    matchesJavaBlockEnd ((endWithLicenseLines).getD 1 []) = true ∧
    (read_file javaProfile endWithLicenseLines).headStart = some 0 ∧
    (read_file javaProfile endWithLicenseLines).headEnd = some 2 := by
  decide

/-- C4: for a block-comment profile, when the start scan found a header
start whose line matches the block-comment-start pattern but no line
from the header start onwards matches the block-comment-end pattern,
read_file discards all header-detection results (headStart, headEnd and
yearsLine all unset), and the subsequent insert rewrite keeps every
original line in order, deleting no trailing content. -/
theorem unterminated_block_no_header (p : Profile) (lines header : List Line) (skip i : Nat)
    (hb : p.blockStart.isSome = true)
    (hf : scanStartAux p lines 0 0 = .found skip i)
    (_hbs : p.blockStartMatches (lines.getD i []) = true)
    (hne : ∀ l ∈ lines.drop i, p.blockEndMatches l = false) :
    (read_file p lines).headStart = none ∧
    (read_file p lines).headEnd = none ∧
    (read_file p lines).yearsLine = none ∧
    List.Sublist lines (insertHeader lines header (read_file p lines).skip) := by
  rcases hsb : scanBlock p (lines.drop i) i none false with ⟨r1, r2, r3⟩
  have h1 : r1 = none := by
    have := scanBlock_noEnd p (lines.drop i) i none false hne
    rw [hsb] at this
    exact this
  subst h1
  have hrf : read_file p lines = ⟨skip, none, none, none, r3⟩ := by
    unfold read_file
    rw [hf]
    simp only [hb, if_true, hsb]
  rw [hrf]
  refine ⟨rfl, rfl, rfl, ?_⟩
  show List.Sublist lines (insertHeader lines header skip)
  unfold insertHeader
  rw [List.append_assoc]
  nth_rewrite 1 [← List.take_append_drop skip lines]
  exact List.Sublist.append_left (List.sublist_append_right _ _) _

/-- C4 (witness): the java profile on a concrete file whose block
comment never closes. -/
theorem unterminated_block_no_header_witness :
    (read_file javaProfile untermLines).headStart = none ∧
    (read_file javaProfile untermLines).headEnd = none ∧
    (read_file javaProfile untermLines).yearsLine = none ∧
    List.Sublist untermLines
      (insertHeader untermLines (for_type javaFmt [("x\n").data])
        (read_file javaProfile untermLines).skip) :=
  unterminated_block_no_header javaProfile untermLines (for_type javaFmt [("x\n").data]) 0 0
    (by decide) (by decide) (by decide) (by decide)

/-- C6 (amended): for a block-comment profile, the scan stops at the
first line at or after the header start that matches the
block-comment-end pattern and does not contain the license keyword, and
headEnd is that line's index; a line matching the end pattern is skipped
when it also contains the license keyword, because the license check
comes first in the loop. -/
theorem block_end_first_clean_line (p : Profile) (lines : List Line) (skip i k : Nat)
    (hb : p.blockStart.isSome = true)
    (hf : scanStartAux p lines 0 0 = .found skip i)
    (hik : i ≤ k) (hk : k < lines.length)
    (hend : p.blockEndMatches (lines.getD k []) = true)
    (hnl : matchesLicense (lines.getD k []) = false)
    (hprev : ∀ j, j < k → i ≤ j → matchesLicense (lines.getD j []) = true ∨
      p.blockEndMatches (lines.getD j []) = false) :
    (read_file p lines).headStart = some i ∧ (read_file p lines).headEnd = some k := by
  have hm : k - i < (lines.drop i).length := by
    rw [List.length_drop]
    omega
  have hki : i + (k - i) = k := by omega
  have hend' : p.blockEndMatches ((lines.drop i).getD (k - i) []) = true := by
    rw [getD_drop, hki]
    exact hend
  have hnl' : matchesLicense ((lines.drop i).getD (k - i) []) = false := by
    rw [getD_drop, hki]
    exact hnl
  have hprev' : ∀ q, q < k - i → matchesLicense ((lines.drop i).getD q []) = true ∨
      p.blockEndMatches ((lines.drop i).getD q []) = false := by
    intro q hq
    simp only [getD_drop]
    exact hprev (i + q) (by omega) (by omega)
  obtain ⟨ha, _⟩ := scanBlock_firstEnd p (lines.drop i) (k - i) i none false hprev' hm hend' hnl'
  rcases hsb : scanBlock p (lines.drop i) i none false with ⟨r1, r2, r3⟩
  rw [hsb] at ha
  simp only at ha
  subst ha
  have hrf : read_file p lines = ⟨skip, some i, some (i + (k - i)), r2, r3⟩ := by
    unfold read_file
    rw [hf]
    simp only [hb, if_true, hsb]
  rw [hrf, hki]
  exact ⟨rfl, rfl⟩

/-- C6 (amended, witness): on the concrete java file the first clean
end line is index 2, and read_file reports exactly that header end. -/
theorem block_end_first_clean_line_witness :
    (read_file javaProfile endWithLicenseLines).headStart = some 0 ∧
    (read_file javaProfile endWithLicenseLines).headEnd = some 2 :=
  block_end_first_clean_line javaProfile endWithLicenseLines 0 0 2
    (by decide) (by decide) (by decide) (by decide) (by decide) (by decide) (by decide)

/-- C2 (amended): for a line-comment-only profile, every line covered by
the detected header range matches the line-comment pattern, except
possibly the final line of the file: the scan loop stops before the last
line, so when every scanned line is a comment the header end falls
through to the last index without checking that line. -/
theorem line_comment_headEnd_matches (p : Profile) (lines : List Line) (i e : Nat)
    (hb : p.blockStart = none)
    (hs : (read_file p lines).headStart = some i)
    (he : (read_file p lines).headEnd = some e) :
    ∀ j, i ≤ j → j ≤ e → j + 1 < lines.length →
      p.lineStartMatches (lines.getD j []) = true := by
  have hbss : p.blockStart.isSome = false := by rw [hb]; rfl
  cases hst : scanStartAux p lines 0 0 with
  | noHeader s => simp [read_file, hst] at hs
  | exhausted s => simp [read_file, hst] at hs
  | found s i0 =>
    rcases hsl : scanLine p ((lines.drop i0).dropLast) i0 none false with ⟨r1, r2, r3⟩
    have hi0 : i0 = i := by
      cases r1 <;> simpa [read_file, hst, hbss, hsl] using hs
    subst hi0
    obtain ⟨_, hilen, _⟩ := scanStartAux_found_bounds p lines 0 0 s i0 hst
    have hmatch := scanStartAux_found_match p lines 0 0 s i0 hst
    have hbm : p.blockStartMatches (lines.getD (i0 - 0) []) = false := by
      simp [Profile.blockStartMatches, hb]
    have hlm : p.lineStartMatches (lines.getD i0 []) = true := by
      rcases hmatch with hm | hm
      · rw [hbm] at hm; simp at hm
      · simpa using hm
    cases r1 with
    | some e0 =>
      have he0 : e0 = e := by simpa [read_file, hst, hbss, hsl] using he
      intro j hij hje hjlen
      cases hsc : (lines.drop i0).dropLast with
      | nil =>
        rw [hsc] at hsl
        simp [scanLine] at hsl
      | cons hd tl =>
        have hscl : 1 ≤ (lines.drop i0).dropLast.length := by
          rw [hsc]
          simp
        rw [List.length_dropLast, List.length_drop] at hscl
        have hhd : hd = lines.getD i0 [] := by
          have h2 : ((lines.drop i0).dropLast).getD 0 [] = lines.getD i0 [] := by
            rw [getD_dropLast _ (lines.drop i0) 0 (by rw [List.length_drop]; omega)]
            rw [getD_drop]
            simp
          rw [hsc] at h2
          simpa using h2
        rcases Nat.eq_or_lt_of_le hij with rfl | hji
        · exact hlm
        · have hlm' : p.lineStartMatches hd = true := by rw [hhd]; exact hlm
          obtain ⟨yl2, hl2, hstep⟩ := scanLine_cons_first p hd tl i0 none false hlm'
          rw [hsc, hstep] at hsl
          have h1 : (scanLine p tl (i0 + 1) yl2 hl2).1 = some e0 := by rw [hsl]
          have hq := scanLine_matches p tl (i0 + 1) yl2 hl2 e0 (by omega) h1
            (j - (i0 + 1)) (by omega)
          have htl : tl.getD (j - (i0 + 1)) [] = lines.getD j [] := by
            have h2 : ((lines.drop i0).dropLast).getD (j - i0) [] = lines.getD j [] := by
              rw [getD_dropLast _ (lines.drop i0) (j - i0) (by rw [List.length_drop]; omega)]
              rw [getD_drop]
              congr 1
              omega
            rw [hsc] at h2
            have hji' : j - i0 = (j - (i0 + 1)) + 1 := by omega
            rw [hji'] at h2
            simpa using h2
          rw [htl] at hq
          exact hq
    | none =>
      intro j hij hje hjlen
      have hall := scanLine_all p ((lines.drop i0).dropLast) i0 none false (by rw [hsl])
      have hjm : ((lines.drop i0).dropLast).getD (j - i0) [] = lines.getD j [] := by
        rw [getD_dropLast _ (lines.drop i0) (j - i0) (by rw [List.length_drop]; omega)]
        rw [getD_drop]
        congr 1
        omega
      have hmem : ((lines.drop i0).dropLast).getD (j - i0) [] ∈ (lines.drop i0).dropLast :=
        getD_mem _ _ _ (by rw [List.length_dropLast, List.length_drop]; omega)
      have := hall _ hmem
      rw [hjm] at this
      exact this

/-- C2 (amended, witness): a concrete python file in which the header
stops before a later non-comment line; the covered line 0 matches the
line-comment pattern. -/
theorem line_comment_headEnd_matches_witness :
    pythonProfile.lineStartMatches
      (([("# a\n").data, ("x\n").data, ("y\n").data] : List Line).getD 0 []) = true :=
  line_comment_headEnd_matches pythonProfile
    [("# a\n").data, ("x\n").data, ("y\n").data] 0 0
    (by rfl) (by decide) (by decide) 0 (by decide) (by decide) (by decide)

/-- When the start scan of a line-comment-only profile found a header
start, an early header end of the line-comment scan is at or after the
header start: the line at the header start matches the line-comment
pattern, so the scan cannot stop before it. -/
theorem scanLine_early_ge (p : Profile) (lines : List Line) (s i e0 : Nat) (r2 : Option Nat)
    (r3 : Bool)
    (hst : scanStartAux p lines 0 0 = .found s i)
    (hb : p.blockStart = none)
    (hsl : scanLine p ((lines.drop i).dropLast) i none false = (some e0, r2, r3)) :
    i ≤ e0 := by
  have hmatch := scanStartAux_found_match p lines 0 0 s i hst
  have hbm : p.blockStartMatches (lines.getD (i - 0) []) = false := by
    simp [Profile.blockStartMatches, hb]
  have hlm : p.lineStartMatches (lines.getD i []) = true := by
    rcases hmatch with hm | hm
    · rw [hbm] at hm; simp at hm
    · simpa using hm
  cases hsc : (lines.drop i).dropLast with
  | nil =>
    rw [hsc] at hsl
    simp [scanLine] at hsl
  | cons hd tl =>
    have hscl : 1 ≤ (lines.drop i).dropLast.length := by
      rw [hsc]
      simp
    rw [List.length_dropLast, List.length_drop] at hscl
    have hhd : hd = lines.getD i [] := by
      have h2 : ((lines.drop i).dropLast).getD 0 [] = lines.getD i [] := by
        rw [getD_dropLast _ (lines.drop i) 0 (by rw [List.length_drop]; omega)]
        rw [getD_drop]
        simp
      rw [hsc] at h2
      simpa using h2
    have hlm' : p.lineStartMatches hd = true := by rw [hhd]; exact hlm
    obtain ⟨yl2, hl2, hstep⟩ := scanLine_cons_first p hd tl i none false hlm'
    rw [hsc, hstep] at hsl
    have h1 : (scanLine p tl (i + 1) yl2 hl2).1 = some e0 := by rw [hsl]
    have := (scanLine_inv p tl (i + 1) yl2 hl2).2 e0 h1
    omega

/-- C8: every result of read_file has headStart and headEnd either both
set or both unset; when both are set they form a valid inclusive range;
and yearsLine, when set, lies within that range. -/
theorem read_file_result_invariant (p : Profile) (lines : List Line) :
    ((read_file p lines).headStart.isSome = (read_file p lines).headEnd.isSome) ∧
    (∀ s e, (read_file p lines).headStart = some s → (read_file p lines).headEnd = some e →
      s ≤ e) ∧
    (∀ y, (read_file p lines).yearsLine = some y →
      ∃ s e, (read_file p lines).headStart = some s ∧ (read_file p lines).headEnd = some e ∧
        s ≤ y ∧ y ≤ e) := by
  cases hst : scanStartAux p lines 0 0 with
  | noHeader s => simp [read_file, hst]
  | exhausted s => simp [read_file, hst]
  | found s i =>
    obtain ⟨_, hilen, _⟩ := scanStartAux_found_bounds p lines 0 0 s i hst
    cases hbs : p.blockStart.isSome with
    | true =>
      rcases hsb : scanBlock p (lines.drop i) i none false with ⟨r1, r2, r3⟩
      cases r1 with
      | some e0 =>
        obtain ⟨hie, hyl⟩ := scanBlock_headEnd p (lines.drop i) i none false e0 r2 r3 hsb
        refine ⟨by simp [read_file, hst, hbs, hsb], ?_, ?_⟩
        · intro s' e' hs' he'
          simp [read_file, hst, hbs, hsb] at hs' he'
          omega
        · intro y hy
          simp [read_file, hst, hbs, hsb] at hy ⊢
          rcases hyl with h | ⟨y', hy', h1, h2⟩
          · rw [h] at hy; cases hy
          · rw [hy'] at hy
            cases hy
            omega
      | none => simp [read_file, hst, hbs, hsb]
    | false =>
      have hbn : p.blockStart = none := by
        cases hpb : p.blockStart
        · rfl
        · rw [hpb] at hbs; simp at hbs
      rcases hsl : scanLine p ((lines.drop i).dropLast) i none false with ⟨r1, r2, r3⟩
      obtain ⟨hyl, hje⟩ := scanLine_inv p ((lines.drop i).dropLast) i none false
      rw [hsl] at hyl hje
      simp only at hyl hje
      cases r1 with
      | some e0 =>
        have hie : i ≤ e0 := scanLine_early_ge p lines s i e0 r2 r3 hst hbn hsl
        refine ⟨by simp [read_file, hst, hbs, hsl], ?_, ?_⟩
        · intro s' e' hs' he'
          simp [read_file, hst, hbs, hsl] at hs' he'
          omega
        · intro y hy
          simp [read_file, hst, hbs, hsl] at hy ⊢
          rcases hyl with h | ⟨y', hy', h1, h2, h3⟩
          · rw [h] at hy; cases hy
          · rw [hy'] at hy
            cases hy
            exact ⟨h1, h3 e0 rfl⟩
      | none =>
        refine ⟨by simp [read_file, hst, hbs, hsl], ?_, ?_⟩
        · intro s' e' hs' he'
          simp [read_file, hst, hbs, hsl] at hs' he'
          omega
        · intro y hy
          simp [read_file, hst, hbs, hsl] at hy ⊢
          rcases hyl with h | ⟨y', hy', h1, h2, h3⟩
          · rw [h] at hy; cases hy
          · rw [hy'] at hy
            cases hy
            rw [List.length_dropLast, List.length_drop] at h2
            omega

/-- C8 (witness): the invariant instantiated on the concrete scenario
file, where headStart, headEnd and a valid range are all present. -/
theorem read_file_result_invariant_witness :
    (read_file pythonProfile scenarioLines).headStart.isSome =
      (read_file pythonProfile scenarioLines).headEnd.isSome ∧ (1 : Nat) ≤ 3 :=
  ⟨(read_file_result_invariant pythonProfile scenarioLines).1,
   (read_file_result_invariant pythonProfile scenarioLines).2.1 1 3 (by decide) (by decide)⟩

/-- A set headStart comes from a found outcome of the start scan with
the same index. -/
theorem read_file_headStart_found (p : Profile) (lines : List Line) (hs : Nat)
    (h : (read_file p lines).headStart = some hs) :
    ∃ s, scanStartAux p lines 0 0 = .found s hs := by
  cases hst : scanStartAux p lines 0 0 with
  | noHeader s => simp [read_file, hst] at h
  | exhausted s => simp [read_file, hst] at h
  | found s i =>
    refine ⟨s, ?_⟩
    cases hbs : p.blockStart.isSome with
    | true =>
      rcases hsb : scanBlock p (lines.drop i) i none false with ⟨r1, r2, r3⟩
      cases r1 with
      | some e0 =>
        simp [read_file, hst, hbs, hsb] at h
        rw [h]
      | none => simp [read_file, hst, hbs, hsb] at h
    | false =>
      rcases hsl : scanLine p ((lines.drop i).dropLast) i none false with ⟨r1, r2, r3⟩
      cases r1 with
      | some e0 =>
        simp [read_file, hst, hbs, hsl] at h
        rw [h]
      | none =>
        simp [read_file, hst, hbs, hsl] at h
        rw [h]

/-- A set yearsLine comes from a found outcome of the start scan and
lies at or after the found header start index. -/
theorem read_file_yearsLine_ge (p : Profile) (lines : List Line) (y : Nat)
    (h : (read_file p lines).yearsLine = some y) :
    ∃ s i, scanStartAux p lines 0 0 = .found s i ∧ i ≤ y := by
  cases hst : scanStartAux p lines 0 0 with
  | noHeader s => simp [read_file, hst] at h
  | exhausted s => simp [read_file, hst] at h
  | found s i =>
    refine ⟨s, i, rfl, ?_⟩
    cases hbs : p.blockStart.isSome with
    | true =>
      rcases hsb : scanBlock p (lines.drop i) i none false with ⟨r1, r2, r3⟩
      cases r1 with
      | some e0 =>
        simp [read_file, hst, hbs, hsb] at h
        obtain ⟨_, hyl⟩ := scanBlock_headEnd p (lines.drop i) i none false e0 r2 r3 hsb
        rcases hyl with h2 | ⟨y', hy', h1, _⟩
        · rw [h2] at h; cases h
        · rw [hy'] at h; cases h; omega
      | none => simp [read_file, hst, hbs, hsb] at h
    | false =>
      rcases hsl : scanLine p ((lines.drop i).dropLast) i none false with ⟨r1, r2, r3⟩
      obtain ⟨hyl, _⟩ := scanLine_inv p ((lines.drop i).dropLast) i none false
      rw [hsl] at hyl
      simp only at hyl
      cases r1 with
      | some e0 =>
        simp [read_file, hst, hbs, hsl] at h
        rcases hyl with h2 | ⟨y', hy', h1, _, _⟩
        · rw [h2] at h; cases h
        · rw [hy'] at h; cases h; omega
      | none =>
        simp [read_file, hst, hbs, hsl] at h
        rcases hyl with h2 | ⟨y', hy', h1, _, _⟩
        · rw [h2] at h; cases h
        · rw [hy'] at h; cases h; omega

/-- C7: when the first line of a file matches the profile's
preserve-first-line pattern, that line is the first line of the output
of every rewrite mode: insert, replace, and year update. -/
theorem keepFirst_line_preserved (p : Profile) (l0 : Line) (rest header : List Line)
    (sub : Line → Line) (h0 : p.keepFirstMatches l0 = true) :
    (insertHeader (l0 :: rest) header (read_file p (l0 :: rest)).skip).headD [] = l0 ∧
    (∀ hs he, (read_file p (l0 :: rest)).headStart = some hs →
      (read_file p (l0 :: rest)).headEnd = some he →
      (replaceHeader (l0 :: rest) header hs he).headD [] = l0) ∧
    (∀ y, (read_file p (l0 :: rest)).yearsLine = some y →
      (updateYears (l0 :: rest) y sub).headD [] = l0) := by
  have step1 : scanStartAux p (l0 :: rest) 0 0 = scanStartAux p rest 1 1 := by
    simp [scanStartAux, keepsAt, h0]
  have htake : ∀ (n : Nat) (zs : List Line), 1 ≤ n →
      ((((l0 :: rest).take n) ++ zs)).headD [] = l0 := by
    intro n zs h1
    cases n with
    | zero => omega
    | succ m => simp [List.take]
  refine ⟨?_, ?_, ?_⟩
  · have hskip : 1 ≤ (read_file p (l0 :: rest)).skip := by
      rw [read_file_skip, step1]
      exact scanStartAux_skip_le p rest 1 1
    unfold insertHeader
    rw [List.append_assoc]
    exact htake _ _ hskip
  · intro hs he h1 _
    obtain ⟨s, hf⟩ := read_file_headStart_found p (l0 :: rest) hs h1
    rw [step1] at hf
    obtain ⟨hge, _, _⟩ := scanStartAux_found_bounds p rest 1 1 s hs hf
    unfold replaceHeader
    rw [List.append_assoc]
    exact htake _ _ hge
  · intro y h1
    obtain ⟨s, i, hf, hiy⟩ := read_file_yearsLine_ge p (l0 :: rest) y h1
    rw [step1] at hf
    obtain ⟨hge, _, _⟩ := scanStartAux_found_bounds p rest 1 1 s i hf
    unfold updateYears
    exact htake _ _ (by omega)

/-- C7 (witness): on a concrete shebang file, all three rewrite modes
keep the shebang as the first output line. -/
theorem keepFirst_line_preserved_witness :
    (insertHeader shebangYearLines [("#\n").data]
      (read_file pythonProfile shebangYearLines).skip).headD [] = ("#!/bin/sh\n").data ∧
    (replaceHeader shebangYearLines [("#\n").data] 1 3).headD [] = ("#!/bin/sh\n").data ∧
    (updateYears shebangYearLines 1 (fun l => l)).headD [] = ("#!/bin/sh\n").data := by
  have h := keepFirst_line_preserved pythonProfile (("#!/bin/sh\n").data)
    [("# Copyright 2000-2001\n").data, ("# b\n").data, ("z\n").data]
    [("#\n").data] (fun l => l) (by decide)
  exact ⟨h.1, h.2.1 1 3 (by decide) (by decide), h.2.2 1 (by decide)⟩

/-- Whether a template line fails to substitute depends only on which
placeholder names have values, not on the values themselves. -/
theorem substLine_none_eq (d d' : Line → Option Line)
    (hsame : ∀ n, (d n).isNone = (d' n).isNone) :
    ∀ cs, (substLine d cs).isNone = (substLine d' cs).isNone := by
  intro cs
  induction cs with
  | nil => simp [substLine]
  | cons c rest ih =>
    cases c with
    | lit str =>
      simp only [substLine, substChunk]
      cases h1 : substLine d rest <;> cases h2 : substLine d' rest <;>
        rw [h1, h2] at ih <;> simp_all
    | var n =>
      have hn := hsame n
      simp only [substLine, substChunk]
      cases hd : d n <;> cases hd' : d' n <;> rw [hd, hd'] at hn <;>
        cases h1 : substLine d rest <;> cases h2 : substLine d' rest <;>
        rw [h1, h2] at ih <;> simp_all

/-- Whether a whole template fails to substitute depends only on which
placeholder names have values. -/
theorem substAll_none_eq (d d' : Line → Option Line)
    (hsame : ∀ n, (d n).isNone = (d' n).isNone) :
    ∀ ts, (substAll d ts).isNone = (substAll d' ts).isNone := by
  intro ts
  induction ts with
  | nil => simp [substAll]
  | cons cs rest ih =>
    have hline := substLine_none_eq d d' hsame cs
    simp only [substAll]
    cases h1 : substLine d cs <;> cases h2 : substLine d' cs <;>
      rw [h1, h2] at hline <;>
      cases h3 : substAll d rest <;> cases h4 : substAll d' rest <;>
      rw [h3, h4] at ih <;> simp_all

/-- A failed template load fails for every file name: the file name only
changes the value of the always-present file_name entry, never the set
of placeholders that have values. -/
theorem read_template_none_uniform (tmpl : List (List Chunk)) (d : Line → Option Line)
    (n n' : Line) (h : read_template tmpl n d = none) : read_template tmpl n' d = none := by
  unfold read_template at h ⊢
  have hsame : ∀ k,
      ((fun k => if k = (("file_name").data) then
        some (match d (("includefile").data) with
          | some v => if v.isEmpty then ("This file").data else n
          | none => ("This file").data) else d k) k).isNone =
      ((fun k => if k = (("file_name").data) then
        some (match d (("includefile").data) with
          | some v => if v.isEmpty then ("This file").data else n'
          | none => ("This file").data) else d k) k).isNone := by
    intro k
    by_cases hk : k = (("file_name").data) <;> simp [hk]
  have := substAll_none_eq _ _ hsame tmpl
  rw [h] at this
  simp only [Option.isNone_none, Option.isNone] at this
  cases h2 : substAll (fun k => if k = (("file_name").data) then
      some (match d (("includefile").data) with
        | some v => if v.isEmpty then ("This file").data else n'
        | none => ("This file").data) else d k) tmpl
  · rfl
  · rw [h2] at this
    simp at this

/-- C9: when the template has a placeholder with no value, the per-file
loop writes no file at all and reports the error: the substitution fails
for the very first file, before anything is written, because a missing
value is missing for every file name alike. -/
theorem missing_value_no_writes (p : Profile) (fp : FmtProfile) (tmpl : List (List Chunk))
    (d : Line → Option Line) (n0 : Line) (h : read_template tmpl n0 d = none)
    (files : List (Line × List Line)) :
    (processFiles p fp tmpl d files []).1 = [] ∧
    (files ≠ [] → (processFiles p fp tmpl d files []).2 = true) := by
  cases files with
  | nil => exact ⟨rfl, fun hne => absurd rfl hne⟩
  | cons f rest =>
    rcases f with ⟨name, ls⟩
    have hn : read_template tmpl name d = none := read_template_none_uniform tmpl d n0 name h
    simp [processFiles, hn]

/-- C9 (witness): a template with an owner placeholder and an empty
settings dictionary; the run writes nothing and flags the error. -/
theorem missing_value_no_writes_witness :
    (processFiles pythonProfile pythonFmt ownerTemplate emptyDict
      [((("a.py").data), scenarioLines)] []).1 = [] ∧
    (([((("a.py").data), scenarioLines)] : List (Line × List Line)) ≠ [] →
      (processFiles pythonProfile pythonFmt ownerTemplate emptyDict
        [((("a.py").data), scenarioLines)] []).2 = true) :=
  missing_value_no_writes pythonProfile pythonFmt ownerTemplate emptyDict
    (("f.py").data) (by decide) [((("a.py").data), scenarioLines)]

/-- C10: when a blank line separates the preserved shebang from a later
coding-declaration line, the coding line is counted in skip (skip = 2)
but is not among the first skip lines of the file, so the insert rewrite
emits it after the inserted header instead of before it. -/
theorem skip_count_vs_positional_insert (sb bl cd r : Line) (rs header : List Line)
    (hsb : matchesHashBang sb = true)
    (hbl1 : matchesEmpty bl = true) (hbl2 : matchesCodingLine bl = false)
    (hcd : matchesCodingLine cd = true)
    (hr1 : matchesCodingLine r = false) (hr2 : matchesEmpty r = false)
    (hr3 : matchesPyLineComment r = true)
    (hne1 : cd ≠ sb) (hne2 : cd ≠ bl) :
    (read_file pythonProfile (sb :: bl :: cd :: r :: rs)).skip = 2 ∧
    (sb :: bl :: cd :: r :: rs).take 2 = [sb, bl] ∧
    insertHeader (sb :: bl :: cd :: r :: rs) header 2 =
      [sb, bl] ++ header ++ cd :: r :: rs ∧
    ¬ (cd ∈ (sb :: bl :: cd :: r :: rs).take 2) := by
  have hscan : scanStartAux pythonProfile (sb :: bl :: cd :: r :: rs) 0 0 = .found 2 3 := by
    simp [scanStartAux, keepsAt, Profile.keepFirstMatches, Profile.keepMoreMatches,
      Profile.blockStartMatches, Profile.lineStartMatches, pythonProfile,
      hsb, hbl1, hbl2, hcd, hr1, hr2, hr3]
  refine ⟨?_, rfl, ?_, ?_⟩
  · rw [read_file_skip, hscan]
    rfl
  · simp [insertHeader]
  · simp [List.take]
    exact ⟨hne1, hne2⟩

/-- C10 (witness): the concrete shebang, blank line, coding declaration
file; skip is 2 and the coding line lands after the header. -/
theorem skip_count_vs_positional_insert_witness :
    (read_file pythonProfile blankCodingLines).skip = 2 ∧
    blankCodingLines.take 2 =
      [("#!/usr/bin/env python\n").data, ("\n").data] ∧
    insertHeader blankCodingLines [("#\n").data] 2 =
      [("#!/usr/bin/env python\n").data, ("\n").data] ++ [("#\n").data] ++
        ("# -*- coding: utf-8 -*-\n").data :: ("# x\n").data :: [] ∧
    ¬ (("# -*- coding: utf-8 -*-\n").data ∈ blankCodingLines.take 2) :=
  skip_count_vs_positional_insert (("#!/usr/bin/env python\n").data) (("\n").data)
    (("# -*- coding: utf-8 -*-\n").data) (("# x\n").data) [] [("#\n").data]
    (by decide) (by decide) (by decide) (by decide) (by decide) (by decide) (by decide)
    (by decide) (by decide)

/-- Splitting a stream that starts with one newline-terminated line
peels off exactly that line. -/
theorem splitLinesAux_line : ∀ (m acc s : List Char), ('\n') ∉ m →
    splitLinesAux (m ++ '\n' :: s) acc = (acc.reverse ++ (m ++ ['\n'])) :: splitLinesAux s [] := by
  intro m
  induction m with
  | nil => intro acc s _; simp [splitLinesAux]
  | cons c m' ih =>
    intro acc s hnm
    have hc : ¬ (c = '\n') := fun h => hnm (by simp [h])
    simp only [List.cons_append, splitLinesAux, hc, if_false, List.append_eq]
    rw [ih (c :: acc) s (fun h => hnm (by simp [h]))]
    simp

/-- Splitting the concatenation of newline-terminated lines followed by
any remaining text yields those lines followed by the split remainder. -/
theorem splitLines_wf_append : ∀ (ls : List Line),
    (∀ l ∈ ls, ∃ m, l = m ++ ['\n'] ∧ ('\n') ∉ m) →
    ∀ s, splitLines (ls.flatten ++ s) = ls ++ splitLines s := by
  intro ls
  induction ls with
  | nil => intro _ s; simp
  | cons l rest ih =>
    intro hwf s
    obtain ⟨m, hm, hnm⟩ := hwf l (by simp)
    have hrest := ih (fun l' h => hwf l' (by simp [h])) s
    unfold splitLines at hrest ⊢
    rw [List.flatten_cons, hm, List.append_assoc, List.append_assoc]
    have hstep : (['\n'] : List Char) ++ (rest.flatten ++ s) = '\n' :: (rest.flatten ++ s) := rfl
    rw [hstep, splitLinesAux_line m [] _ hnm]
    rw [hrest]
    simp [hm]

/-- C5 (amended): for the java block-comment profile, and every template
whose lines are newline-terminated without interior newlines, at least
one of which carries the license keyword once prefixed, and none of
which once prefixed matches the block-end pattern unless it carries the
license keyword: writing the for_type-formatted header followed by any
remaining text and reading the result back as lines, read_file reports
haveLicense = true with headStart 0 and headEnd on the last inserted
header line. -/
theorem java_roundtrip_detects_header (tmpl : List Line) (restText : List Char)
    (hwf : ∀ t ∈ tmpl, ∃ m, t = m ++ ['\n'] ∧ ('\n') ∉ m)
    (hlic : ∃ t ∈ tmpl, matchesLicense (((" * ").data) ++ t) = true)
    (hnoend : ∀ t ∈ tmpl, matchesLicense (((" * ").data) ++ t) = true ∨
      matchesJavaBlockEnd (((" * ").data) ++ t) = false) :
    (read_file javaProfile
      (splitLines ((for_type javaFmt tmpl).flatten ++ restText))).haveLicense = true ∧
    (read_file javaProfile
      (splitLines ((for_type javaFmt tmpl).flatten ++ restText))).headStart = some 0 ∧
    (read_file javaProfile
      (splitLines ((for_type javaFmt tmpl).flatten ++ restText))).headEnd =
        some (tmpl.length + 1) := by
  have hfl : for_type javaFmt tmpl =
      (("/*\n").data) :: (tmpl.map (fun t => ((" * ").data) ++ t) ++ [((" */\n").data)]) := by
    simp [for_type, javaFmt]
  have hwf' : ∀ l ∈ for_type javaFmt tmpl, ∃ m, l = m ++ ['\n'] ∧ ('\n') ∉ m := by
    rw [hfl]
    intro l hl
    rcases List.mem_cons.mp hl with rfl | hl2
    · exact ⟨(("/*").data), by decide, by decide⟩
    · rcases List.mem_append.mp hl2 with hl3 | hl3
      · obtain ⟨t, ht, rfl⟩ := List.mem_map.mp hl3
        obtain ⟨m, hm, hnm⟩ := hwf t ht
        refine ⟨((" * ").data) ++ m, by rw [hm, List.append_assoc], ?_⟩
        intro hmem
        rcases List.mem_append.mp hmem with h3 | h3
        · simp at h3
        · exact hnm h3
      · simp only [List.mem_singleton] at hl3
        subst hl3
        exact ⟨((" */").data), by decide, by decide⟩
  have hsplit := splitLines_wf_append (for_type javaFmt tmpl) hwf' restText
  rw [hsplit, hfl]
  have hlen : (tmpl.map (fun t => ((" * ").data) ++ t)).length = tmpl.length := by simp
  have hassoc : ((("/*\n").data) ::
        (tmpl.map (fun t => ((" * ").data) ++ t) ++ [((" */\n").data)])) ++
        splitLines restText =
      (("/*\n").data) :: (tmpl.map (fun t => ((" * ").data) ++ t) ++
        ([((" */\n").data)] ++ splitLines restText)) := by
    simp
  rw [hassoc]
  set mid := tmpl.map (fun t => ((" * ").data) ++ t) with hmid
  set tail := ([((" */\n").data)] ++ splitLines restText) with htail
  set L := (("/*\n").data) :: (mid ++ tail) with hL
  have hstart : scanStartAux javaProfile L 0 0 = .found 0 0 := by
    have h1 : matchesEmpty (("/*\n").data) = false := by decide
    have h2 : matchesJavaBlockStart (("/*\n").data) = true := by decide
    simp [hL, scanStartAux, keepsAt, Profile.keepFirstMatches, Profile.keepMoreMatches,
      Profile.blockStartMatches, javaProfile, h1, h2]
  have hgetm : L.getD (tmpl.length + 1) [] = ((" */\n").data) := by
    rw [hL, ← hlen]
    simp only [List.getD_cons_succ]
    have h := getD_append_shift ([] : Line) mid tail 0
    simp only [Nat.add_zero] at h
    rw [h]
    rfl
  have hgetk : ∀ k, k < tmpl.length → L.getD (k + 1) [] = ((" * ").data) ++ tmpl.getD k [] := by
    intro k hk
    rw [hL]
    simp only [List.getD_cons_succ]
    rw [getD_append_left _ mid tail k (by rw [hlen]; exact hk), hmid]
    exact getD_map _ [] [] tmpl k hk
  have hprev : ∀ q, q < tmpl.length + 1 → matchesLicense (L.getD q []) = true ∨
      javaProfile.blockEndMatches (L.getD q []) = false := by
    intro q hq
    cases q with
    | zero =>
      right
      rw [hL]
      simp only [List.getD_cons_zero]
      decide
    | succ k =>
      have hk : k < tmpl.length := by omega
      rw [hgetk k hk]
      exact hnoend _ (getD_mem [] tmpl k hk)
  have hend' : javaProfile.blockEndMatches (L.getD (tmpl.length + 1) []) = true := by
    rw [hgetm]
    decide
  have hnl' : matchesLicense (L.getD (tmpl.length + 1) []) = false := by
    rw [hgetm]
    decide
  have hm : tmpl.length + 1 < L.length := by
    rw [hL, htail]
    simp [hlen]
  have hq : ∃ q, q < tmpl.length + 1 ∧ matchesLicense (L.getD q []) = true := by
    obtain ⟨t, ht, hlt⟩ := hlic
    obtain ⟨k, hk, hkt⟩ := List.getElem_of_mem ht
    refine ⟨k + 1, by omega, ?_⟩
    rw [hgetk k hk, getD_eq_getElem' [] tmpl k hk, hkt]
    exact hlt
  obtain ⟨ha, hb⟩ := scanBlock_firstEnd javaProfile L (tmpl.length + 1) 0 none false
    hprev hm hend' hnl'
  rcases hsb : scanBlock javaProfile L 0 none false with ⟨r1, r2, r3⟩
  rw [hsb] at ha hb
  simp only at ha hb
  subst ha
  have hr3 : r3 = true := hb (Or.inr hq)
  have hrf : read_file javaProfile L = ⟨0, some 0, some (0 + (tmpl.length + 1)), r2, r3⟩ := by
    unfold read_file
    rw [hstart]
    have hj : javaProfile.blockStart.isSome = true := rfl
    simp only [hj, if_true, List.drop_zero, hsb]
  rw [hrf, hr3]
  refine ⟨rfl, rfl, ?_⟩
  simp

/-- C5 (amended, witness): a concrete one-line license template wrapped
for java, followed by a code line. -/
theorem java_roundtrip_detects_header_witness :
    (read_file javaProfile
      (splitLines ((for_type javaFmt [("Licensed under MIT\n").data]).flatten ++
        ("code\n").data))).haveLicense = true ∧
    (read_file javaProfile
      (splitLines ((for_type javaFmt [("Licensed under MIT\n").data]).flatten ++
        ("code\n").data))).headStart = some 0 ∧
    (read_file javaProfile
      (splitLines ((for_type javaFmt [("Licensed under MIT\n").data]).flatten ++
        ("code\n").data))).headEnd = some 2 :=
  java_roundtrip_detects_header [("Licensed under MIT\n").data] (("code\n").data)
    (by
      intro t ht
      simp only [List.mem_singleton] at ht
      subst ht
      exact ⟨("Licensed under MIT").data, by decide, by decide⟩)
    ⟨("Licensed under MIT\n").data, by simp, by decide⟩
    (by
      intro t ht
      simp only [List.mem_singleton] at ht
      subst ht
      exact Or.inl (by decide))

end Licenseheaders
